import Mathlib

/-!
Shallow embedding of the multi-agent coordinator and workflow engine
(files agentic_ai/orchestrator/coordinator.py and
agentic_ai/orchestrator/workflow.py), together with proofs of the
behavioural properties stated about them.

Python dictionaries are modelled as insertion-ordered association lists,
Python values as the inductive type PyVal (with dict.get returning the
distinguished value pnone when a key is absent, as Python returns None),
and exceptions as Except values.  Stateful methods are modelled by
explicit state passing.  The asynchronous parts (asyncio.gather over a
shared asyncio.Semaphore) are modelled by a small-step scheduler over a
pool of permit-disciplined tasks, quantified over arbitrary interleavings.
-/

/-- Model of a Python value as it flows through the coordinator: None,
booleans, strings, numbers, lists and dicts (insertion-ordered). -/
inductive PyVal where
  | pnone
  | pbool (b : Bool)
  | pstr (s : String)
  | pnum (q : ℚ)
  | plist (l : List PyVal)
  | pdict (entries : List (String × PyVal))

/-- The single-quote character, used in the error messages of
coordinator.py (f-strings of the form f"Agent {name} ..." quote the
agent name). -/
def squo : String := "\x27"

/-- Python truthiness for the modelled values: None, False, empty
strings, zero, empty lists and empty dicts are falsy. -/
def truthy : PyVal → Bool
  | .pnone => false
  | .pbool b => b
  | .pstr s => !s.isEmpty
  | .pnum q => decide (q ≠ 0)
  | .plist l => !l.isEmpty
  | .pdict l => !l.isEmpty

/-- Dictionary lookup, d[k] as an Option: the first binding of the key
(a Python dict holds each key at most once). Non-dict values have no
keys. -/
def pget : PyVal → String → Option PyVal
  | .pdict entries, k => entries.lookup k
  | _, _ => none

/-- Python d.get(k): the bound value, or None when absent. -/
def pgetN (v : PyVal) (k : String) : PyVal :=
  (pget v k).getD .pnone

/-- Python d.get(k, default). -/
def pgetD (v : PyVal) (k : String) (d : PyVal) : PyVal :=
  (pget v k).getD d

/-- Python len() on the modelled values (only applied to lists, strings
and dicts by the embedded code). -/
def pyLen : PyVal → Nat
  | .plist l => l.length
  | .pstr s => s.length
  | .pdict l => l.length
  | _ => 0

/-- An agent as the coordinator sees it (agentic_ai/agents/base.py): a
name and an execute operation taking a task string and a context value,
returning a result or failing with an error message (the str() of the
Python exception).  The coordinator treats the body of run as an opaque
external collaborator. -/
structure Agent where
  name : String
  run : String → PyVal → Except String PyVal

/-- The agent registry, self.agents: a Python dict from name to agent,
modelled as an insertion-ordered association list with unique keys. -/
def Registry : Type := List (String × Agent)

/-- list(self.agents.keys()): the registered names in insertion order. -/
def registryKeys (reg : Registry) : List String :=
  (show List (String × Agent) from reg).map Prod.fst

/-- AgentCoordinator.get_agent: self.agents.get(name). -/
def get_agent (reg : Registry) (name : String) : Option Agent :=
  List.lookup name (show List (String × Agent) from reg)

/-- Orchestration-level failure (core/exceptions.py OrchestrationError):
a message plus a structured details dict. -/
structure OrchestrationError where
  message : String
  details : List (String × PyVal)

/-- AgentCoordinator.register_agent, with the registry passed as explicit
state: raises OrchestrationError on a duplicate name (leaving the
registry as it was), otherwise inserts the agent under its name. -/
def register_agent (reg : Registry) (agent : Agent) :
    Except OrchestrationError Unit × Registry :=
  if (get_agent reg agent.name).isSome then
    (.error { message := "Agent with name " ++ squo ++ agent.name ++ squo ++
                         " is already registered",
              details := [("agent", .pstr agent.name)] }, reg)
  else
    (.ok (), (show List (String × Agent) from reg) ++ [(agent.name, agent)])

/-- AgentCoordinator.execute_agent, single-call denotation: look the
agent up (failing with the not-found OrchestrationError that carries the
offending name and the full list of registered names), then invoke its
execute, wrapping any agent-level failure into an OrchestrationError
carrying agent name, task and original message.  The semaphore acquired
around the call is invisible to a single call; its effect on concurrent
pools is modelled separately below. -/
def execute_agent (reg : Registry) (agent_name task : String) (context : PyVal) :
    Except OrchestrationError PyVal :=
  match get_agent reg agent_name with
  | none =>
      .error { message := "Agent " ++ squo ++ agent_name ++ squo ++ " not found",
               details := [("agent", .pstr agent_name),
                           ("registered_agents",
                            .plist ((registryKeys reg).map .pstr))] }
  | some agent =>
      match agent.run task context with
      | .ok result => .ok result
      | .error e =>
          .error { message := "Agent " ++ squo ++ agent_name ++ squo ++
                              " execution failed: " ++ e,
                   details := [("agent", .pstr agent_name),
                               ("task", .pstr task),
                               ("error", .pstr e)] }

/-- execute_agent with the registry passed as explicit state: the method
only reads self.agents, so the registry component is returned as
received. -/
def execute_agent_state (reg : Registry) (agent_name task : String)
    (context : PyVal) : Except OrchestrationError PyVal × Registry :=
  (execute_agent reg agent_name task context, reg)

/-- The call made for entry i of a task list of (agent_name, task,
context) triples. -/
def execAt (reg : Registry) (tasks : List (String × String × PyVal))
    (i : Nat) : Except OrchestrationError PyVal :=
  match tasks.get? i with
  | some (name, task, ctx) => execute_agent reg name task ctx
  | none => .error { message := "index out of range", details := [] }

/-- AgentCoordinator.execute_sequential, instrumented with the list of
invoked positions (the observable a call-count spy agent sees): entries
run strictly in order through execute_agent; the first failure stops the
loop, the local results accumulated so far being the completed ones.
Returns (invoked positions, completed results, the error if any). -/
def execute_sequential_from (reg : Registry) (pos : Nat) :
    List (String × String × PyVal) →
      List Nat × List PyVal × Option OrchestrationError
  | [] => ([], [], none)
  | (name, task, ctx) :: rest =>
    match execute_agent reg name task ctx with
    | .ok r =>
        let t := execute_sequential_from reg (pos + 1) rest
        (pos :: t.1, r :: t.2.1, t.2.2)
    | .error e => ([pos], [], some e)

/-- AgentCoordinator.execute_sequential on a task list, positions counted
from 0. -/
def execute_sequential (reg : Registry)
    (tasks : List (String × String × PyVal)) :
    List Nat × List PyVal × Option OrchestrationError :=
  execute_sequential_from reg 0 tasks

/-- Python max_concurrent or settings.max_concurrent_agents in
AgentCoordinator.__init__: the given bound when it is truthy (neither
None nor 0), the settings default otherwise.  asyncio.Semaphore is sized
with this value. -/
def coordinator_max_concurrent (given : Option Nat) (settingsDefault : Nat) : Nat :=
  match given with
  | some n => if n = 0 then settingsDefault else n
  | none => settingsDefault

/-- Phase of one in-flight execute_agent call in the cooperative
scheduler: waiting for a semaphore permit, running (holding a permit,
with the remaining number of scheduler steps before the awaited
agent.execute returns), or done with its outcome.  Acquire happens
before the call, release happens when the call returns, on the success
and on the failure path alike (the async-with block of execute_agent). -/
inductive TaskPhase where
  | waiting
  | running (fuel : Nat)
  | done (outcome : Except OrchestrationError PyVal)

/-- State of a pool of concurrent execute_agent calls sharing the one
coordinator semaphore: the free-permit count and the phase of every
task. -/
structure PoolState where
  sem : Nat
  phases : List TaskPhase

/-- One cooperative scheduler step granted to task i: a waiting task
acquires a permit when one is free (and stays queued otherwise), a
running task advances, and a finishing task records its outcome and
releases its permit — also when the outcome is an error. -/
def stepTask (outcome : Nat → Except OrchestrationError PyVal)
    (dur : Nat → Nat) (st : PoolState) (i : Nat) : PoolState :=
  match st.phases.get? i with
  | some .waiting =>
      if 0 < st.sem then
        { sem := st.sem - 1, phases := st.phases.set i (.running (dur i)) }
      else st
  | some (.running (f + 1)) =>
      { st with phases := st.phases.set i (.running f) }
  | some (.running 0) =>
      { sem := st.sem + 1, phases := st.phases.set i (.done (outcome i)) }
  | _ => st

/-- Run the scheduler along an arbitrary interleaving, given as the list
of task indices granted steps, in order. -/
def runSched (outcome : Nat → Except OrchestrationError PyVal)
    (dur : Nat → Nat) (sched : List Nat) (st : PoolState) : PoolState :=
  sched.foldl (stepTask outcome dur) st

/-- The pool at the moment asyncio.gather dispatches n coroutines on a
coordinator whose semaphore holds bound free permits. -/
def initPool (bound n : Nat) : PoolState :=
  { sem := bound, phases := List.replicate n .waiting }

/-- Number of tasks currently inside the semaphore-guarded region, i.e.
in-flight agent.execute calls. -/
def runningCount (phases : List TaskPhase) : Nat :=
  phases.countP (fun ph => match ph with | .running _ => true | _ => false)

/-- asyncio.gather with return_exceptions=False, observed at the end:
when every task has completed successfully, the results in task order
(the order of the input list), otherwise no result list. -/
def gatherResults (phases : List TaskPhase) : Option (List PyVal) :=
  phases.mapM (fun ph => match ph with
    | .done (.ok r) => some r
    | _ => none)

/-- Every task recorded as done carries the outcome of its own input
index: the scheduler never crosses results between tasks. -/
def donePhasesOK (outcome : Nat → Except OrchestrationError PyVal)
    (phases : List TaskPhase) : Prop :=
  ∀ i v, phases.get? i = some (.done v) → v = outcome i

/-- AgentCoordinator.execute_parallel under the cooperative scheduler:
asyncio.gather dispatches one execute_agent call per entry of the task
list, all sharing the coordinator semaphore of the given size, and the
scheduler interleaves them along sched. -/
def execute_parallel_pool (reg : Registry)
    (tasks : List (String × String × PyVal)) (bound : Nat)
    (dur : Nat → Nat) (sched : List Nat) : PoolState :=
  runSched (execAt reg tasks) dur sched (initPool bound tasks.length)

/-- Agent returning the fixed string A, for concrete scenarios. -/
def agentAlpha : Agent := ⟨"alpha", fun _ _ => .ok (.pstr "A")⟩

/-- Agent returning the fixed string B, for concrete scenarios. -/
def agentBeta : Agent := ⟨"beta", fun _ _ => .ok (.pstr "B")⟩

/-- A two-agent registry for concrete scenarios. -/
def wReg : Registry := [("alpha", agentAlpha), ("beta", agentBeta)]

/-- A two-entry parallel task list for concrete scenarios. -/
def wTasks : List (String × String × PyVal) :=
  [("alpha", "t0", .pnone), ("beta", "t1", .pnone)]

/-- The per-index results of wTasks on wReg. -/
def wRes : Nat → PyVal := fun i => if i = 0 then .pstr "A" else .pstr "B"

/-- Agent failing with the fixed message boom, for concrete scenarios. -/
def agentGammaFail : Agent := ⟨"gamma", fun _ _ => .error "boom"⟩

/-- Registry holding one succeeding and one failing agent. -/
def wRegF : Registry := [("alpha", agentAlpha), ("gamma", agentGammaFail)]

/-- A three-entry sequential task list whose middle entry fails. -/
def wTasksSeq : List (String × String × PyVal) :=
  [("alpha", "t0", .pnone), ("gamma", "t1", .pnone), ("alpha", "t2", .pnone)]

/-- An agent sharing the name alpha with agentAlpha but with different
behaviour, for the duplicate-registration scenario. -/
def agentAlphaClone : Agent := ⟨"alpha", fun _ _ => .ok (.pstr "A2")⟩

/-- Iteration over a modelled Python value; the embedded code only
iterates over list values (a non-list under the results key would raise
in Python and lies outside the modelled domain). -/
def pyIter : PyVal → List PyVal
  | .plist l => l
  | _ => []

/-- The Wikipedia source dict built by WorkflowEngine._prepare_source_data. -/
def wikiSource (wiki_data : PyVal) : PyVal :=
  .pdict [("type", .pstr "Wikipedia"),
          ("title", pgetN wiki_data "title"),
          ("url", pgetN wiki_data "url"),
          ("content", pgetN wiki_data "extract")]

/-- The web-search source dict _prepare_source_data builds from one
search result item. -/
def webSource (r : PyVal) : PyVal :=
  .pdict [("type", .pstr "Web Search"),
          ("title", pgetN r "title"),
          ("url", pgetN r "link"),
          ("content", pgetN r "snippet")]

/-- WorkflowEngine._prepare_source_data: the Wikipedia source first when
wiki_data.get("extract") is truthy, then one source per item of
search_results.get("results", []), preserving their order. -/
def prepare_source_data (search_results wiki_data : PyVal) : List PyVal :=
  (if truthy (pgetN wiki_data "extract") then [wikiSource wiki_data] else []) ++
    (pyIter (pgetD search_results "results" (.plist []))).map webSource

/-- Wikipedia result with a title and a non-empty extract, for concrete
scenarios. -/
def wWiki : PyVal :=
  .pdict [("title", .pstr "Topic"), ("url", .pstr "wu"),
          ("extract", .pstr "summary")]

/-- Search result carrying three items under the results key, for
concrete scenarios. -/
def wSearch : PyVal :=
  .pdict [("results", .plist [
    .pdict [("title", .pstr "r1"), ("link", .pstr "u1"), ("snippet", .pstr "s1")],
    .pdict [("title", .pstr "r2"), ("link", .pstr "u2"), ("snippet", .pstr "s2")],
    .pdict [("title", .pstr "r3"), ("link", .pstr "u3"), ("snippet", .pstr "s3")]])]

/-- The fixed synthesis prompt execute_research_workflow builds for the
WatsonX crafter agent. -/
def synthesis_task (query : String) : String :=
  "Create a comprehensive research report about: " ++ query ++
  "\n\nRequirements:\n- Synthesize information from web search and Wikipedia sources\n- Structure the report with clear sections\n- Include key insights and findings\n- Maintain academic rigor and cite sources\n- Provide a conclusion with key takeaways"

/-- The synthesis context execute_research_workflow passes to the
crafter agent: the assembled sources, the token limit and the fixed
temperature 0.7. -/
def synthesis_context (source_data : List PyVal) (report_max_tokens : ℚ) :
    PyVal :=
  .pdict [("source_data", .plist source_data),
          ("max_tokens", .pnum report_max_tokens),
          ("temperature", .pnum (7 / 10))]

/-- AgentCoordinator.execute_parallel, success-order denotation: one
execute_agent call per entry, results in input order, first error
aborting. The theorem execute_parallel_preserves_order shows the
concurrent execution realizes exactly this input-order result list
whenever it completes. -/
def execute_parallel_den (reg : Registry) :
    List (String × String × PyVal) → Except OrchestrationError (List PyVal)
  | [] => .ok []
  | (name, task, ctx) :: rest =>
    match execute_agent reg name task ctx with
    | .error e => .error e
    | .ok r =>
        match execute_parallel_den reg rest with
        | .error e => .error e
        | .ok rs => .ok (r :: rs)

/-- WorkflowEngine.execute_research_workflow: fan out the search and the
knowledge-lookup call in parallel, assemble the source list, make the
synthesis call, and return the report plus metadata (search-result
count, wikipedia title as returned with None marking absence, and the
token counts reported by the synthesis result, 0 when unreported). -/
def execute_research_workflow (reg : Registry) (query : String)
    (num_search_results wiki_sentences report_max_tokens : ℚ) :
    Except OrchestrationError PyVal :=
  match execute_parallel_den reg
      [("google-search-agent", query,
        .pdict [("num_results", .pnum num_search_results)]),
       ("wikipedia-agent", query,
        .pdict [("sentences", .pnum wiki_sentences)])] with
  | .error e => .error e
  | .ok parallel_results =>
    let search_results := parallel_results.getD 0 .pnone
    let wiki_data := parallel_results.getD 1 .pnone
    let source_data := prepare_source_data search_results wiki_data
    match execute_agent reg "watsonx-crafter-agent" (synthesis_task query)
        (synthesis_context source_data report_max_tokens) with
    | .error e => .error e
    | .ok watsonx_result =>
      .ok (.pdict [
        ("query", .pstr query),
        ("search_results", search_results),
        ("wikipedia_data", wiki_data),
        ("final_report", pgetD watsonx_result "generated_text" (.pstr "")),
        ("metadata", .pdict [
          ("num_search_results",
           .pnum (pyLen (pgetD search_results "results" (.plist [])) : ℚ)),
          ("wikipedia_title", pgetN wiki_data "title"),
          ("report_tokens", pgetD watsonx_result "generated_tokens" (.pnum 0)),
          ("total_input_tokens",
           pgetD watsonx_result "input_tokens" (.pnum 0))])])

/-- The three search items carried by wSearch under the results key. -/
def wSearchItems : List PyVal := [
  .pdict [("title", .pstr "r1"), ("link", .pstr "u1"), ("snippet", .pstr "s1")],
  .pdict [("title", .pstr "r2"), ("link", .pstr "u2"), ("snippet", .pstr "s2")],
  .pdict [("title", .pstr "r3"), ("link", .pstr "u3"), ("snippet", .pstr "s3")]]

/-- The fixed result of the fake synthesis agent. -/
def wCraftRes : PyVal :=
  .pdict [("generated_text", .pstr "report"),
          ("generated_tokens", .pnum 4), ("input_tokens", .pnum 2)]

/-- Fake broad-search agent returning wSearch. -/
def fakeSearchAgent : Agent := ⟨"google-search-agent", fun _ _ => .ok wSearch⟩

/-- Fake knowledge-lookup agent returning wWiki. -/
def fakeWikiAgent : Agent := ⟨"wikipedia-agent", fun _ _ => .ok wWiki⟩

/-- Fake synthesis agent returning wCraftRes. -/
def fakeCrafterAgent : Agent := ⟨"watsonx-crafter-agent", fun _ _ => .ok wCraftRes⟩

/-- Registry holding the three fake research-pipeline agents. -/
def wRegWf : Registry :=
  [("google-search-agent", fakeSearchAgent),
   ("wikipedia-agent", fakeWikiAgent),
   ("watsonx-crafter-agent", fakeCrafterAgent)]

/-- Value stored in a heap object of the custom-workflow model: None,
strings, numbers, nested lists, and references to other heap objects
(Python object identity: aliasing is sharing of an address). -/
inductive HVal where
  | hnone
  | hstr (s : String)
  | hnum (q : ℚ)
  | href (a : Nat)
  | hlist (l : List HVal)

/-- A Python dict object: insertion-ordered key/value bindings. -/
abbrev Obj : Type := List (String × HVal)

/-- The heap of dict objects, addressed by position; steps and results
refer to objects through addresses, as Python variables refer to
objects. -/
abbrev Heap : Type := List Obj

/-- First binding of a key in an object. -/
def objGet (obj : Obj) (k : String) : Option HVal :=
  List.lookup k obj

/-- Python dict assignment obj[k] = v: overwrite the existing binding in
place, keeping its position, or append a new binding. -/
def objSet : Obj → String → HVal → Obj
  | [], k, v => [(k, v)]
  | (k2, v2) :: rest, k, v =>
    if k2 = k then (k, v) :: rest else (k2, v2) :: objSet rest k v

/-- Number of bindings of a key in an object (1 for every key of a
well-formed dict). -/
def keyCount (obj : Obj) (k : String) : Nat :=
  obj.countP (fun e => decide (e.1 = k))

/-- The object at a heap address (addresses used by the embedded code
are always in range). -/
def heapGet (h : Heap) (a : Nat) : Obj :=
  h.getD a []

/-- In-place update of the object at a heap address. -/
def heapSet (h : Heap) (a : Nat) (obj : Obj) : Heap :=
  h.set a obj

/-- One step of execute_custom_workflow: agent name, task, the heap
address of the caller-supplied context dict (none when the step carries
no context key; step.get("context", \x7b\x7d) then evaluates to a fresh
empty dict), the depends_on index list ([] when absent) and the parallel
flag the schema admits. -/
structure WStep where
  agent : String
  task : String
  context : Option Nat
  depends_on : List Nat
  parallel : Option Bool

instance : Inhabited WStep := ⟨⟨"", "", none, [], none⟩⟩

/-- Running state of execute_custom_workflow: the heap, the addresses
of the per-step result objects collected so far (the local results
list), and the trace of dispatched agent calls as (name, task, context
value at dispatch time). -/
structure WfState where
  heap : Heap
  results : List Nat
  trace : List (String × String × Obj)

/-- One iteration of the execute_custom_workflow loop, in heap-passing
style: resolve the context dict (the caller dict at the given address,
or a freshly allocated empty dict), when depends_on is non-empty write
previous_results into that dict in place — a list of references to the
stored prior result objects, read as results[idx] — dispatch the agent
call on the resulting context value, and allocate the returned result
object, appending its address to results.  A depends_on index is read
with getD 0; the claims only concern in-range backward references
(Python would raise IndexError otherwise). -/
def runStep (call : String → String → Obj → Except OrchestrationError Obj)
    (st : WfState) (step : WStep) : Except OrchestrationError WfState :=
  let alloc : Heap × Nat :=
    match step.context with
    | some a => (st.heap, a)
    | none => (st.heap ++ [[]], st.heap.length)
  let h2 : Heap :=
    if step.depends_on.isEmpty then alloc.1
    else heapSet alloc.1 alloc.2
      (objSet (heapGet alloc.1 alloc.2) "previous_results"
        (.hlist (step.depends_on.map (fun idx => .href (st.results.getD idx 0)))))
  let ctxVal := heapGet h2 alloc.2
  match call step.agent step.task ctxVal with
  | .error e => .error e
  | .ok robj =>
      .ok { heap := h2 ++ [robj],
            results := st.results ++ [h2.length],
            trace := st.trace ++ [(step.agent, step.task, ctxVal)] }

/-- The strictly sequential step loop of execute_custom_workflow: step i
completes (its agent call returns) before step i+1 starts, and the
first failure aborts the loop. -/
def runSteps (call : String → String → Obj → Except OrchestrationError Obj) :
    List WStep → WfState → Except OrchestrationError WfState
  | [], st => .ok st
  | step :: rest, st =>
    match runStep call st step with
    | .error e => .error e
    | .ok st2 => runSteps call rest st2

/-- WorkflowEngine.execute_custom_workflow: run the steps sequentially
from an empty results list over the caller-built heap, then apply the
optional result aggregator, or return the dict of the ordered result
references plus the step count.  The final state (heap included) is
returned alongside to expose the effect on caller-owned dicts. -/
def execute_custom_workflow
    (call : String → String → Obj → Except OrchestrationError Obj)
    (steps : List WStep) (heap : Heap) (agg : Option (List Nat → Obj)) :
    Except OrchestrationError (Obj × WfState) :=
  match runSteps call steps { heap := heap, results := [], trace := [] } with
  | .error e => .error e
  | .ok st =>
    match agg with
    | some f => .ok (f st.results, st)
    | none => .ok ([("steps", .hlist (st.results.map .href)),
                    ("total_steps", .hnum steps.length)], st)

/-- Agreement of two steps on every field the engine reads: agent, task,
context and depends_on — everything except the parallel flag. -/
def stepAgrees (s1 s2 : WStep) : Prop :=
  s1.agent = s2.agent ∧ s1.task = s2.task ∧ s1.context = s2.context ∧
    s1.depends_on = s2.depends_on

/-- A call oracle answering every dispatch with a one-field result
dict naming the dispatched agent. -/
def wCall : String → String → Obj → Except OrchestrationError Obj :=
  fun n _ _ => .ok [("by", .hstr n)]

/-- Two steps, the second depending on the first, parallel flags set. -/
def wStepsP : List WStep :=
  [⟨"alpha", "t0", some 0, [], some true⟩,
   ⟨"beta", "t1", none, [0], some true⟩]

/-- The same two steps with the parallel flag absent. -/
def wStepsNP : List WStep :=
  [⟨"alpha", "t0", some 0, [], none⟩,
   ⟨"beta", "t1", none, [0], none⟩]

/-- Default trace entry used with getD reads of the call trace. -/
def noCall : String × String × Obj := ("", "", [])

/-- Invariant of the custom-workflow state relative to the caller-built
heap region (its first callerLen objects): the heap contains the caller
region, trace and results advance together, every collected result
address lies above the caller region and inside the heap, the object
stored at the j-th result address is exactly the object the j-th
dispatched call returned (stored results are never mutated), and every
heap object keeps duplicate-free keys. -/
structure WfInv (callerLen : Nat)
    (call : String → String → Obj → Except OrchestrationError Obj)
    (st : WfState) : Prop where
  hlen : callerLen ≤ st.heap.length
  htr : st.trace.length = st.results.length
  hres : ∀ r ∈ st.results, callerLen ≤ r ∧ r < st.heap.length
  hout : ∀ j, j < st.results.length →
    call (st.trace.getD j noCall).1 (st.trace.getD j noCall).2.1
        (st.trace.getD j noCall).2.2 =
      .ok (heapGet st.heap (st.results.getD j 0))
  hkeys : ∀ obj ∈ st.heap, (obj.map Prod.fst).Nodup

/-- A two-step workflow whose second step depends on the first; the
first step carries the caller context at heap address 0. -/
def wSteps9 : List WStep :=
  [⟨"alpha", "t0", some 0, [], none⟩,
   ⟨"beta", "t1", none, [0], none⟩]

/-- A one-object caller heap for the custom-workflow scenarios. -/
def wHeap9 : Heap := [[("seed", .hstr "x")]]

/-- The outcome of running wSteps9 over wHeap9 with the wCall oracle. -/
def wOut9 : Obj × WfState :=
  ([("steps", .hlist [.href 1, .href 3]),
    ("total_steps", .hnum ((2 : ℕ) : ℚ))],
   { heap := [[("seed", .hstr "x")], [("by", .hstr "alpha")],
              [("previous_results", .hlist [.href 1])],
              [("by", .hstr "beta")]],
     results := [1, 3],
     trace := [("alpha", "t0", [("seed", .hstr "x")]),
               ("beta", "t1", [("previous_results", .hlist [.href 1])])] })

/-- Two steps whose second carries the caller context at address 0 and
depends on the first. -/
def wSteps10 : List WStep :=
  [⟨"alpha", "t0", none, [], none⟩,
   ⟨"beta", "t1", some 0, [0], none⟩]

/-- A caller heap whose single dict already binds previous_results. -/
def wHeap10 : Heap :=
  [[("previous_results", .hstr "old"), ("seed", .hstr "x")]]

/-- The outcome of running wSteps10 over wHeap10 with the wCall oracle. -/
def wOut10 : Obj × WfState :=
  ([("steps", .hlist [.href 2, .href 3]),
    ("total_steps", .hnum ((2 : ℕ) : ℚ))],
   { heap := [[("previous_results", .hlist [.href 2]), ("seed", .hstr "x")],
              [], [("by", .hstr "alpha")], [("by", .hstr "beta")]],
     results := [2, 3],
     trace := [("alpha", "t0", []),
               ("beta", "t1",
                [("previous_results", .hlist [.href 2]),
                 ("seed", .hstr "x")])] })

theorem countP_set_of_get {α : Type} (p : α → Bool) :
    ∀ (l : List α) (i : Nat) (old nv : α), l.get? i = some old →
      (l.set i nv).countP p + (if p old then 1 else 0) =
        l.countP p + (if p nv then 1 else 0) := by
  intro l
  induction l with
  | nil => intro i old nv h; simp at h
  | cons a t ih =>
      intro i old nv h
      cases i with
      | zero =>
          simp at h
          subst h
          simp [List.countP_cons]
          omega
      | succ j =>
          rw [List.get?_cons_succ] at h
          have := ih j old nv h
          simp [List.countP_cons]
          omega

theorem stepTask_length (outcome : Nat → Except OrchestrationError PyVal)
    (dur : Nat → Nat) (st : PoolState) (i : Nat) :
    (stepTask outcome dur st i).phases.length = st.phases.length := by
  unfold stepTask
  rcases h : st.phases.get? i with _ | ph
  · simp
  · rcases ph with _ | f | v
    · by_cases hs : 0 < st.sem <;> simp [hs]
    · rcases f with _ | f <;> simp
    · simp

theorem stepTask_conserve (outcome : Nat → Except OrchestrationError PyVal)
    (dur : Nat → Nat) (st : PoolState) (i : Nat) :
    (stepTask outcome dur st i).sem +
      runningCount (stepTask outcome dur st i).phases =
        st.sem + runningCount st.phases := by
  unfold stepTask runningCount
  rcases h : st.phases.get? i with _ | ph
  · simp
  · rcases ph with _ | f | v
    · by_cases hs : 0 < st.sem
      · have hc := countP_set_of_get
          (fun ph => match ph with | TaskPhase.running _ => true | _ => false)
          st.phases i TaskPhase.waiting (TaskPhase.running (dur i)) h
        simp [hs]
        simp at hc
        omega
      · simp [hs]
    · rcases f with _ | f
      · have hc := countP_set_of_get
          (fun ph => match ph with | TaskPhase.running _ => true | _ => false)
          st.phases i (TaskPhase.running 0) (TaskPhase.done (outcome i)) h
        simp
        simp at hc
        omega
      · have hc := countP_set_of_get
          (fun ph => match ph with | TaskPhase.running _ => true | _ => false)
          st.phases i (TaskPhase.running (f + 1)) (TaskPhase.running f) h
        simp
        simp at hc
        omega
    · simp

theorem runSched_conserve (outcome : Nat → Except OrchestrationError PyVal)
    (dur : Nat → Nat) (sched : List Nat) (st : PoolState) :
    (runSched outcome dur sched st).sem +
      runningCount (runSched outcome dur sched st).phases =
        st.sem + runningCount st.phases := by
  induction sched generalizing st with
  | nil => rfl
  | cons i rest ih =>
      have h1 := stepTask_conserve outcome dur st i
      have h2 := ih (stepTask outcome dur st i)
      simpa [runSched, List.foldl_cons] using h2.trans h1

theorem donePhasesOK_set (outcome : Nat → Except OrchestrationError PyVal)
    (phases : List TaskPhase) (i : Nat) (nv : TaskPhase)
    (h : donePhasesOK outcome phases)
    (hnv : ∀ v, nv = TaskPhase.done v → v = outcome i) :
    donePhasesOK outcome (phases.set i nv) := by
  intro j v hj
  rw [List.get?_set] at hj
  split at hj
  case isTrue hij =>
      cases hp : phases.get? j with
      | none => rw [hp] at hj; simp at hj
      | some w =>
          rw [hp] at hj
          simp only [Option.map_some] at hj
          have hv : nv = TaskPhase.done v := by
            injection hj
          exact hij ▸ hnv v hv
  case isFalse hij => exact h j v hj

theorem stepTask_doneOK (outcome : Nat → Except OrchestrationError PyVal)
    (dur : Nat → Nat) (st : PoolState) (i : Nat)
    (h : donePhasesOK outcome st.phases) :
    donePhasesOK outcome (stepTask outcome dur st i).phases := by
  unfold stepTask
  rcases hg : st.phases.get? i with _ | ph
  · exact h
  · rcases ph with _ | f | v
    · by_cases hs : 0 < st.sem
      · simp only [if_pos hs]
        exact donePhasesOK_set outcome st.phases i _ h (by intro v hv; cases hv)
      · simp only [if_neg hs]; exact h
    · rcases f with _ | f
      · exact donePhasesOK_set outcome st.phases i _ h
          (by intro v hv; injection hv with h2; exact h2.symm)
      · exact donePhasesOK_set outcome st.phases i _ h (by intro v hv; cases hv)
    · exact h

theorem runSched_doneOK (outcome : Nat → Except OrchestrationError PyVal)
    (dur : Nat → Nat) (sched : List Nat) (st : PoolState)
    (h : donePhasesOK outcome st.phases) :
    donePhasesOK outcome (runSched outcome dur sched st).phases := by
  induction sched generalizing st with
  | nil => exact h
  | cons i rest ih =>
      exact ih (stepTask outcome dur st i) (stepTask_doneOK outcome dur st i h)

theorem donePhasesOK_initPool (outcome : Nat → Except OrchestrationError PyVal)
    (bound n : Nat) : donePhasesOK outcome (initPool bound n).phases := by
  intro i v h
  have hm := List.get?_mem h
  simp only [initPool] at hm
  rw [List.mem_replicate] at hm
  cases hm.2

theorem runSched_length (outcome : Nat → Except OrchestrationError PyVal)
    (dur : Nat → Nat) (sched : List Nat) (st : PoolState) :
    (runSched outcome dur sched st).phases.length = st.phases.length := by
  induction sched generalizing st with
  | nil => rfl
  | cons i rest ih =>
      exact (ih (stepTask outcome dur st i)).trans (stepTask_length outcome dur st i)

theorem runningCount_replicate_waiting (n : Nat) :
    runningCount (List.replicate n TaskPhase.waiting) = 0 := by
  induction n with
  | zero => rfl
  | succ m ih =>
      simpa [runningCount, List.replicate_succ, List.countP_cons] using ih

theorem gatherResults_of_all_done (res : Nat → PyVal) :
    ∀ (phases : List TaskPhase),
      (∀ i, i < phases.length →
        phases.get? i = some (.done (.ok (res i)))) →
      gatherResults phases = some ((List.range phases.length).map res) := by
  intro phases
  induction phases generalizing res with
  | nil => intro _; rfl
  | cons ph rest ih =>
      intro h
      have h0 : ph = TaskPhase.done (Except.ok (res 0)) := by
        have := h 0 (by simp)
        simpa using this
      have hrest : ∀ i, i < rest.length →
          rest.get? i = some (.done (.ok (res (i + 1)))) := by
        intro i hi
        have := h (i + 1) (by simpa using Nat.succ_lt_succ hi)
        simpa using this
      have ihr := ih (fun i => res (i + 1)) hrest
      subst h0
      simp only [gatherResults, List.mapM_cons] at ihr ⊢
      rw [ihr]
      simp [List.range_succ_eq_map, List.map_map, Function.comp]

/-- Claim C1: for every input list of (agentName, task, context) triples, every
semaphore size and every scheduler interleaving under which all
dispatched calls complete, execute_parallel returns a result list of the
same length as the input in which the entry at index i is the result of
executing the agent/task at input index i, regardless of the order in
which the underlying calls complete. -/
theorem execute_parallel_preserves_order
    (reg : Registry) (tasks : List (String × String × PyVal))
    (bound : Nat) (dur : Nat → Nat) (sched : List Nat) (res : Nat → PyVal)
    (hok : ∀ i, i < tasks.length → execAt reg tasks i = Except.ok (res i))
    (hdone : ∀ i, i < tasks.length →
      ∃ v, (execute_parallel_pool reg tasks bound dur sched).phases.get? i =
        some (.done v)) :
    gatherResults (execute_parallel_pool reg tasks bound dur sched).phases =
      some ((List.range tasks.length).map res) := by
  unfold execute_parallel_pool at hdone ⊢
  have hlen : (runSched (execAt reg tasks) dur sched
      (initPool bound tasks.length)).phases.length = tasks.length := by
    rw [runSched_length]
    simp [initPool]
  have hOK := runSched_doneOK (execAt reg tasks) dur sched
      (initPool bound tasks.length)
      (donePhasesOK_initPool (execAt reg tasks) bound tasks.length)
  have hall : ∀ i, i < (runSched (execAt reg tasks) dur sched
      (initPool bound tasks.length)).phases.length →
      (runSched (execAt reg tasks) dur sched
        (initPool bound tasks.length)).phases.get? i =
        some (.done (.ok (res i))) := by
    intro i hi
    rw [hlen] at hi
    obtain ⟨v, hv⟩ := hdone i hi
    have hveq := hOK i v hv
    rw [hv, hveq, hok i hi]
  have hg := gatherResults_of_all_done res _ hall
  rw [hlen] at hg
  exact hg

/-- Claim C2: for a coordinator constructed with concurrency bound N of at
least 1 (the Python expression max_concurrent or default then sizes the
semaphore with exactly N), at every reachable instant of every
interleaving of an arbitrary pool of permit-disciplined agent calls —
the discipline every execution entry point follows, acquiring before the
call and releasing on success and failure alike — the number of
in-flight calls is at most N, and free permits plus in-flight calls
always total N (the conservation law expressing release on every exit
path). -/
theorem concurrency_bound_invariant (N0 d : Nat) (hN : 1 ≤ N0)
    (outcome : Nat → Except OrchestrationError PyVal) (dur : Nat → Nat)
    (n : Nat) (sched : List Nat) :
    runningCount (runSched outcome dur sched
        (initPool (coordinator_max_concurrent (some N0) d) n)).phases ≤ N0 ∧
    (runSched outcome dur sched
        (initPool (coordinator_max_concurrent (some N0) d) n)).sem +
      runningCount (runSched outcome dur sched
        (initPool (coordinator_max_concurrent (some N0) d) n)).phases = N0 := by
  have hcmc : coordinator_max_concurrent (some N0) d = N0 := by
    unfold coordinator_max_concurrent
    have hz : N0 ≠ 0 := by omega
    simp [hz]
  have hcons := runSched_conserve outcome dur sched
      (initPool (coordinator_max_concurrent (some N0) d) n)
  have hinit : (initPool (coordinator_max_concurrent (some N0) d) n).sem +
      runningCount (initPool (coordinator_max_concurrent (some N0) d) n).phases
        = N0 := by
    simp [initPool, runningCount_replicate_waiting, hcmc]
  rw [hinit] at hcons
  exact ⟨by omega, hcons⟩

/-- Witness for C1: with semaphore size 1 and a schedule under which the
second task starts and completes before the first, the gathered result
list is still in input order. -/
theorem execute_parallel_preserves_order_witness :
    gatherResults
        (execute_parallel_pool wReg wTasks 1 (fun _ => 0) [1, 1, 0, 0]).phases =
      some ((List.range wTasks.length).map wRes) :=
  execute_parallel_preserves_order wReg wTasks 1 (fun _ => 0) [1, 1, 0, 0] wRes
    (by
      intro i hi
      match i, hi with
      | 0, _ => rfl
      | 1, _ => rfl)
    (by
      intro i hi
      match i, hi with
      | 0, _ => exact ⟨.ok (.pstr "A"), rfl⟩
      | 1, _ => exact ⟨.ok (.pstr "B"), rfl⟩)

/-- Witness for C2 at bound 2, three tasks and a concrete schedule. -/
theorem concurrency_bound_invariant_witness :
    runningCount (runSched (fun _ => Except.ok PyVal.pnone) (fun _ => 0)
        [0, 1, 2, 0, 1, 2]
        (initPool (coordinator_max_concurrent (some 2) 5) 3)).phases ≤ 2 ∧
    (runSched (fun _ => Except.ok PyVal.pnone) (fun _ => 0) [0, 1, 2, 0, 1, 2]
        (initPool (coordinator_max_concurrent (some 2) 5) 3)).sem +
      runningCount (runSched (fun _ => Except.ok PyVal.pnone) (fun _ => 0)
        [0, 1, 2, 0, 1, 2]
        (initPool (coordinator_max_concurrent (some 2) 5) 3)).phases = 2 :=
  concurrency_bound_invariant 2 5 (by omega) (fun _ => Except.ok PyVal.pnone)
    (fun _ => 0) 3 [0, 1, 2, 0, 1, 2]

theorem execute_sequential_from_spec (reg : Registry) :
    ∀ (tasks : List (String × String × PyVal)) (pos k : Nat)
      (res : Nat → PyVal) (e : OrchestrationError),
      k < tasks.length →
      (∀ i, i < k → execAt reg tasks i = Except.ok (res i)) →
      execAt reg tasks k = Except.error e →
      execute_sequential_from reg pos tasks =
        ((List.range (k + 1)).map (fun j => pos + j),
         (List.range k).map res, some e) := by
  intro tasks
  induction tasks with
  | nil => intro pos k res e hk _ _; simp at hk
  | cons t rest ih =>
      intro pos k res e hk hok herr
      obtain ⟨name, task, ctx⟩ := t
      cases k with
      | zero =>
          have h0 : execute_agent reg name task ctx = Except.error e := by
            simpa [execAt] using herr
          simp [execute_sequential_from, h0, List.range_succ]
      | succ k2 =>
          have h0 : execute_agent reg name task ctx = Except.ok (res 0) := by
            have := hok 0 (Nat.succ_pos _)
            simpa [execAt] using this
          have hok2 : ∀ i, i < k2 → execAt reg rest i = Except.ok (res (i + 1)) := by
            intro i hi
            have := hok (i + 1) (Nat.succ_lt_succ hi)
            simpa [execAt, List.get?_cons_succ] using this
          have herr2 : execAt reg rest k2 = Except.error e := by
            simpa [execAt, List.get?_cons_succ] using herr
          have hk2 : k2 < rest.length := by simpa using hk
          have ihh := ih (pos + 1) k2 (fun i => res (i + 1)) e hk2 hok2 herr2
          have htr : (List.range (k2 + 2)).map (fun j => pos + j) =
              pos :: (List.range (k2 + 1)).map (fun j => pos + 1 + j) := by
            rw [List.range_succ_eq_map, List.map_cons, List.map_map]
            have hf : ((fun j => pos + j) ∘ Nat.succ) =
                (fun j => pos + 1 + j) := by
              funext j
              simp [Function.comp]
              omega
            rw [hf]
            simp
          have hres : (List.range (k2 + 1)).map res =
              res 0 :: (List.range k2).map (fun i => res (i + 1)) := by
            rw [List.range_succ_eq_map, List.map_cons, List.map_map]
            rfl
          simp [execute_sequential_from, h0, ihh, htr, hres]

/-- Claim C3: for every task list whose call at 0-based position k fails while
every earlier call succeeds, execute_sequential invokes positions 0
through k in order with positions 0 to k-1 completing successfully,
stops at position k carrying exactly the k completed results, and never
invokes any position beyond k (its invocation trace is exactly 0..k). -/
theorem execute_sequential_stops_at_failure
    (reg : Registry) (tasks : List (String × String × PyVal)) (k : Nat)
    (res : Nat → PyVal) (e : OrchestrationError)
    (hk : k < tasks.length)
    (hok : ∀ i, i < k → execAt reg tasks i = Except.ok (res i))
    (herr : execAt reg tasks k = Except.error e) :
    execute_sequential reg tasks =
      (List.range (k + 1), (List.range k).map res, some e) := by
  have h := execute_sequential_from_spec reg tasks 0 k res e hk hok herr
  simpa [execute_sequential] using h

/-- Witness for C3: failure at position 1 of three tasks yields the
trace 0..1, exactly one completed result, the wrapped error, and no
invocation of position 2. -/
theorem execute_sequential_stops_at_failure_witness :
    execute_sequential wRegF wTasksSeq =
      (List.range 2, (List.range 1).map (fun _ => PyVal.pstr "A"),
       some { message := "Agent " ++ squo ++ "gamma" ++ squo ++
                         " execution failed: boom",
              details := [("agent", .pstr "gamma"), ("task", .pstr "t1"),
                          ("error", .pstr "boom")] }) :=
  execute_sequential_stops_at_failure wRegF wTasksSeq 1
    (fun _ => PyVal.pstr "A") _ (by simp [wTasksSeq])
    (by
      intro i hi
      match i, hi with
      | 0, _ => rfl)
    rfl

/-- Claim C4: registering an agent whose name is already registered fails with
the duplicate-name OrchestrationError and leaves the registry unchanged,
so a subsequent lookup of that name still returns the originally
registered agent. -/
theorem register_agent_duplicate_rejected (reg : Registry) (orig a : Agent)
    (h : get_agent reg a.name = some orig) :
    register_agent reg a =
      (.error { message := "Agent with name " ++ squo ++ a.name ++ squo ++
                           " is already registered",
                details := [("agent", .pstr a.name)] }, reg) ∧
    get_agent (register_agent reg a).2 a.name = some orig := by
  have hs : (get_agent reg a.name).isSome = true := by rw [h]; rfl
  refine ⟨?_, ?_⟩
  · simp [register_agent, hs]
  · simp [register_agent, hs, h]

/-- Witness for C4: registering a second agent named alpha on wReg fails
with the duplicate error, the registry is unchanged and lookup still
returns the original alpha agent. -/
theorem register_agent_duplicate_rejected_witness :
    register_agent wReg agentAlphaClone =
      (.error { message := "Agent with name " ++ squo ++
                           agentAlphaClone.name ++ squo ++
                           " is already registered",
                details := [("agent", .pstr agentAlphaClone.name)] }, wReg) ∧
    get_agent (register_agent wReg agentAlphaClone).2 agentAlphaClone.name =
      some agentAlpha :=
  register_agent_duplicate_rejected wReg agentAlpha agentAlphaClone rfl

/-- Claim C5: executing an agent name absent from the registry fails with the
not-found OrchestrationError whose structured details carry the
offending name and exactly the list of currently registered agent
names, and the registry is left unchanged. -/
theorem execute_agent_missing_not_found (reg : Registry)
    (name task : String) (ctx : PyVal)
    (h : get_agent reg name = none) :
    execute_agent_state reg name task ctx =
      (.error { message := "Agent " ++ squo ++ name ++ squo ++ " not found",
                details := [("agent", .pstr name),
                            ("registered_agents",
                             .plist ((registryKeys reg).map .pstr))] }, reg) := by
  simp [execute_agent_state, execute_agent, h]

/-- Witness for C5: executing the unregistered name missing on the
two-agent registry wReg yields the not-found error listing exactly
alpha and beta, with the registry unchanged. -/
theorem execute_agent_missing_not_found_witness :
    execute_agent_state wReg "missing" "t" PyVal.pnone =
      (.error { message := "Agent " ++ squo ++ "missing" ++ squo ++
                           " not found",
                details := [("agent", .pstr "missing"),
                            ("registered_agents",
                             .plist ((registryKeys wReg).map .pstr))] }, wReg) :=
  execute_agent_missing_not_found wReg "missing" "t" PyVal.pnone rfl

theorem truthy_pstr_iff (s : String) : truthy (.pstr s) = true ↔ s ≠ "" := by
  show (!s.isEmpty) = true ↔ s ≠ ""
  rw [Bool.not_eq_true', ← Bool.not_eq_true]
  exact not_congr (String.isEmpty_iff s)

/-- Claim C6: for every search-result mapping whose results field is a list of
items (or absent, items then being empty) and every knowledge-lookup
mapping whose extract field is a string or absent, _prepare_source_data
puts the knowledge-lookup source first exactly when the extract is a
non-empty string, follows it with one source per broad-search result
item in the original order, and contributes no null entry. -/
theorem prepare_source_data_spec (search wiki : PyVal) (items : List PyVal)
    (hres : pgetD search "results" (.plist []) = .plist items)
    (hext : (∃ e, pgetN wiki "extract" = .pstr e) ∨
      pgetN wiki "extract" = .pnone) :
    (truthy (pgetN wiki "extract") = true ↔
      ∃ e, pgetN wiki "extract" = .pstr e ∧ e ≠ "") ∧
    prepare_source_data search wiki =
      (if truthy (pgetN wiki "extract") then [wikiSource wiki] else []) ++
        items.map webSource ∧
    (prepare_source_data search wiki).length =
      (if truthy (pgetN wiki "extract") then 1 else 0) + items.length ∧
    ∀ src ∈ prepare_source_data search wiki, src ≠ PyVal.pnone := by
  have heq : prepare_source_data search wiki =
      (if truthy (pgetN wiki "extract") then [wikiSource wiki] else []) ++
        items.map webSource := by
    unfold prepare_source_data
    rw [hres]
    rfl
  refine ⟨?_, heq, ?_, ?_⟩
  · rcases hext with ⟨e, he⟩ | he
    · rw [he]
      simp [truthy_pstr_iff]
    · rw [he]
      simp [truthy]
  · rw [heq]
    by_cases h : truthy (pgetN wiki "extract") = true <;> simp [h] <;> omega
  · intro src hsrc
    rw [heq] at hsrc
    rcases List.mem_append.mp hsrc with hl | hr
    · by_cases h : truthy (pgetN wiki "extract") = true
      · rw [if_pos h] at hl
        simp at hl
        rw [hl]
        simp [wikiSource]
      · rw [if_neg h] at hl
        simp at hl
    · obtain ⟨r, _, hsr⟩ := List.mem_map.mp hr
      rw [← hsr]
      simp [webSource]

/-- Witness for C6 on the concrete three-item search result and the
non-empty-extract Wikipedia result. -/
theorem prepare_source_data_spec_witness :
    (truthy (pgetN wWiki "extract") = true ↔
      ∃ e, pgetN wWiki "extract" = .pstr e ∧ e ≠ "") ∧
    prepare_source_data wSearch wWiki =
      (if truthy (pgetN wWiki "extract") then [wikiSource wWiki] else []) ++
        (pyIter (pgetD wSearch "results" (.plist []))).map webSource ∧
    (prepare_source_data wSearch wWiki).length =
      (if truthy (pgetN wWiki "extract") then 1 else 0) +
        (pyIter (pgetD wSearch "results" (.plist []))).length ∧
    ∀ src ∈ prepare_source_data wSearch wWiki, src ≠ PyVal.pnone :=
  prepare_source_data_spec wSearch wWiki
    (pyIter (pgetD wSearch "results" (.plist [])))
    rfl (Or.inl ⟨"summary", rfl⟩)

/-- Claim C7: on every successful run, execute_research_workflow returns the
synthesized text with metadata whose search-result count equals the
number of items under the broad-search results key, whose
wikipedia_title equals the returned title when present and the explicit
None absence marker otherwise, and whose token counts equal the ones the
synthesis result reports. -/
theorem execute_research_workflow_metadata
    (reg : Registry) (query : String) (nsr ws rmt : ℚ)
    (sr wd wr : PyVal) (items : List PyVal) (ft gt it : PyVal)
    (hs : execute_agent reg "google-search-agent" query
      (.pdict [("num_results", .pnum nsr)]) = .ok sr)
    (hw : execute_agent reg "wikipedia-agent" query
      (.pdict [("sentences", .pnum ws)]) = .ok wd)
    (hx : execute_agent reg "watsonx-crafter-agent" (synthesis_task query)
      (synthesis_context (prepare_source_data sr wd) rmt) = .ok wr)
    (hitems : pgetD sr "results" (.plist []) = .plist items)
    (hft : pget wr "generated_text" = some ft)
    (hgt : pget wr "generated_tokens" = some gt)
    (hit : pget wr "input_tokens" = some it) :
    execute_research_workflow reg query nsr ws rmt =
      .ok (.pdict [
        ("query", .pstr query),
        ("search_results", sr),
        ("wikipedia_data", wd),
        ("final_report", ft),
        ("metadata", .pdict [
          ("num_search_results", .pnum (items.length : ℚ)),
          ("wikipedia_title", pgetN wd "title"),
          ("report_tokens", gt),
          ("total_input_tokens", it)])]) ∧
    (∀ t, pget wd "title" = some t → pgetN wd "title" = t) ∧
    (pget wd "title" = none → pgetN wd "title" = PyVal.pnone) := by
  refine ⟨?_, ?_, ?_⟩
  · unfold execute_research_workflow
    simp only [execute_parallel_den, hs, hw, hx]
    simp only [pgetD] at hitems
    simp [pgetD, hft, hgt, hit, hitems, pyLen]
    rw [hx]
    simp [pgetD, hft, hgt, hit]
  · intro t ht
    simp [pgetN, ht]
  · intro ht
    simp [pgetN, ht]

/-- Witness for C7 on the three fake agents: the metadata counts the 3
search items, carries the fake title and the reported token counts. -/
theorem execute_research_workflow_metadata_witness :
    (execute_research_workflow wRegWf "topic" 3 2 500 =
      .ok (.pdict [
        ("query", .pstr "topic"),
        ("search_results", wSearch),
        ("wikipedia_data", wWiki),
        ("final_report", .pstr "report"),
        ("metadata", .pdict [
          ("num_search_results", .pnum (wSearchItems.length : ℚ)),
          ("wikipedia_title", pgetN wWiki "title"),
          ("report_tokens", .pnum 4),
          ("total_input_tokens", .pnum 2)])])) ∧
    (∀ t, pget wWiki "title" = some t → pgetN wWiki "title" = t) ∧
    (pget wWiki "title" = none → pgetN wWiki "title" = PyVal.pnone) :=
  execute_research_workflow_metadata wRegWf "topic" 3 2 500 wSearch wWiki
    wCraftRes wSearchItems (.pstr "report") (.pnum 4) (.pnum 2)
    rfl rfl rfl rfl rfl rfl rfl

theorem objGet_objSet_self (obj : Obj) (k : String) (v : HVal) :
    objGet (objSet obj k v) k = some v := by
  induction obj with
  | nil => simp [objSet, objGet]
  | cons e rest ih =>
      obtain ⟨k2, v2⟩ := e
      by_cases h : k2 = k
      · simp [objSet, h, objGet]
      · have hb : (k == k2) = false := by
          simp only [beq_eq_false_iff_ne, ne_eq]
          exact fun hkk => h hkk.symm
        simp only [objSet, if_neg h, objGet, List.lookup_cons, hb]
        exact ih

theorem objGet_objSet_ne (obj : Obj) (k k2 : String) (v : HVal)
    (hne : k2 ≠ k) : objGet (objSet obj k v) k2 = objGet obj k2 := by
  have hb : (k2 == k) = false := by
    simp only [beq_eq_false_iff_ne, ne_eq]
    exact hne
  induction obj with
  | nil => simp [objSet, objGet, List.lookup_cons, hb]
  | cons e rest ih =>
      obtain ⟨k3, v3⟩ := e
      by_cases h : k3 = k
      · subst h
        simp only [objSet, eq_self_iff_true, if_true, objGet,
          List.lookup_cons, hb]
      · simp only [objSet, if_neg h, objGet, List.lookup_cons] at ih ⊢
        cases hb2 : (k2 == k3) with
        | true => rfl
        | false => exact ih

theorem objSet_ne_of_objGet_ne (obj : Obj) (k : String) (v : HVal)
    (h : objGet obj k ≠ some v) : objSet obj k v ≠ obj := by
  intro he
  exact h (he ▸ objGet_objSet_self obj k v)

theorem objSet_keys (obj : Obj) (k : String) (v : HVal) :
    (objSet obj k v).map Prod.fst =
      if k ∈ obj.map Prod.fst then obj.map Prod.fst
      else obj.map Prod.fst ++ [k] := by
  induction obj with
  | nil => simp [objSet]
  | cons e rest ih =>
      obtain ⟨k2, v2⟩ := e
      by_cases h : k2 = k
      · subst h
        simp [objSet]
      · simp only [objSet, if_neg h, List.map_cons, ih]
        have hne : ¬ k = k2 := fun hkk => h hkk.symm
        by_cases hm : k ∈ rest.map Prod.fst
        · simp [hm, hne]
        · simp [hm, hne]

theorem objSet_keys_nodup (obj : Obj) (k : String) (v : HVal)
    (h : (obj.map Prod.fst).Nodup) :
    ((objSet obj k v).map Prod.fst).Nodup := by
  rw [objSet_keys]
  by_cases hm : k ∈ obj.map Prod.fst
  · simpa [hm] using h
  · rw [if_neg hm]
    exact List.Nodup.append h (List.nodup_singleton k)
      (by simpa [List.disjoint_singleton] using hm)

theorem keyCount_eq_count_keys (obj : Obj) (k : String) :
    keyCount obj k = (obj.map Prod.fst).count k := by
  unfold keyCount
  rw [List.count_eq_countP, List.countP_map]
  apply List.countP_congr
  intro e _
  by_cases he : e.1 = k <;> simp [he, Function.comp]

theorem keyCount_objSet_self (obj : Obj) (k : String) (v : HVal)
    (h : (obj.map Prod.fst).Nodup) :
    keyCount (objSet obj k v) k = 1 := by
  rw [keyCount_eq_count_keys]
  exact List.count_eq_one_of_mem (objSet_keys_nodup obj k v h)
    (by
      rw [objSet_keys]
      by_cases hm : k ∈ obj.map Prod.fst <;> simp [hm])

theorem heapGet_append_lt (h : Heap) (o : Obj) (a : Nat)
    (ha : a < h.length) : heapGet (h ++ [o]) a = heapGet h a := by
  unfold heapGet
  rw [List.getD_eq_getElem?_getD, List.getD_eq_getElem?_getD,
      List.getElem?_append_left ha]

theorem heapGet_append_self (h : Heap) (o : Obj) :
    heapGet (h ++ [o]) h.length = o := by
  unfold heapGet
  rw [List.getD_eq_getElem?_getD]
  simp

theorem heapGet_heapSet_self (h : Heap) (a : Nat) (o : Obj)
    (ha : a < h.length) : heapGet (heapSet h a o) a = o := by
  unfold heapGet heapSet
  rw [List.getD_eq_getElem?_getD, List.getElem?_set_self ha]
  rfl

theorem heapGet_heapSet_ne (h : Heap) (a b : Nat) (o : Obj)
    (hne : a ≠ b) : heapGet (heapSet h a o) b = heapGet h b := by
  unfold heapGet heapSet
  rw [List.getD_eq_getElem?_getD, List.getD_eq_getElem?_getD,
      List.getElem?_set_ne hne]

theorem heapSet_length (h : Heap) (a : Nat) (o : Obj) :
    (heapSet h a o).length = h.length := by
  unfold heapSet
  exact List.length_set h a o

theorem mem_heapSet (h : Heap) (a : Nat) (o obj : Obj)
    (hm : obj ∈ heapSet h a o) : obj ∈ h ∨ obj = o := by
  unfold heapSet at hm
  exact List.mem_or_eq_of_mem_set hm

theorem runStep_stepAgrees
    (call : String → String → Obj → Except OrchestrationError Obj)
    (st : WfState) (s1 s2 : WStep) (h : stepAgrees s1 s2) :
    runStep call st s1 = runStep call st s2 := by
  obtain ⟨ha, ht, hc, hd⟩ := h
  obtain ⟨a1, t1, c1, d1, p1⟩ := s1
  obtain ⟨a2, t2, c2, d2, p2⟩ := s2
  simp only at ha ht hc hd
  subst ha; subst ht; subst hc; subst hd
  rfl

theorem runSteps_stepAgrees
    (call : String → String → Obj → Except OrchestrationError Obj)
    (s1 s2 : List WStep) (h : List.Forall₂ stepAgrees s1 s2) :
    ∀ st, runSteps call s1 st = runSteps call s2 st := by
  induction h with
  | nil => intro st; rfl
  | cons ha hrest ih =>
      intro st
      simp only [runSteps]
      rw [runStep_stepAgrees call st _ _ ha]
      cases runStep call st _ with
      | error e => rfl
      | ok st2 => exact ih st2

/-- Claim C8: two step lists that agree on agent, task, context and
depends_on but differ arbitrarily in the value or the presence of the
parallel flag produce identical outcomes against every call oracle,
heap and aggregator — the same returned value, final heap, result
addresses and agent-call trace.  The engine never reads parallel; both
lists run through the same strictly sequential loop. -/
theorem execute_custom_workflow_ignores_parallel
    (call : String → String → Obj → Except OrchestrationError Obj)
    (s1 s2 : List WStep) (heap : Heap) (agg : Option (List Nat → Obj))
    (h : List.Forall₂ stepAgrees s1 s2) :
    execute_custom_workflow call s1 heap agg =
      execute_custom_workflow call s2 heap agg := by
  unfold execute_custom_workflow
  rw [runSteps_stepAgrees call s1 s2 h, h.length_eq]

/-- Witness for C8: flipping the parallel flags of a concrete two-step
workflow leaves the outcome identical. -/
theorem execute_custom_workflow_ignores_parallel_witness :
    execute_custom_workflow wCall wStepsP [[("k", .hnone)]] none =
      execute_custom_workflow wCall wStepsNP [[("k", .hnone)]] none :=
  execute_custom_workflow_ignores_parallel wCall wStepsP wStepsNP
    [[("k", .hnone)]] none
    (List.Forall₂.cons ⟨rfl, rfl, rfl, rfl⟩
      (List.Forall₂.cons ⟨rfl, rfl, rfl, rfl⟩ List.Forall₂.nil))

theorem getD_append_self {α : Type} (l : List α) (x : α) (d : α) :
    (l ++ [x]).getD l.length d = x := by
  rw [List.getD_eq_getElem?_getD]
  simp

theorem getD_append_lt {α : Type} (l : List α) (x : α) (d : α) (j : Nat)
    (hj : j < l.length) : (l ++ [x]).getD j d = l.getD j d := by
  rw [List.getD_eq_getElem?_getD, List.getD_eq_getElem?_getD,
      List.getElem?_append_left hj]

theorem getD_mem {α : Type} (l : List α) (j : Nat) (d : α)
    (hj : j < l.length) : l.getD j d ∈ l := by
  rw [List.getD_eq_getElem l d hj]
  exact l.getElem_mem hj

theorem heapGet_mem (h : Heap) (a : Nat) (ha : a < h.length) :
    heapGet h a ∈ h :=
  getD_mem h a [] ha

theorem wfInv_extend (callerLen : Nat)
    (call : String → String → Obj → Except OrchestrationError Obj)
    (st : WfState) (h2 : Heap) (ag tk : String) (ctxVal robj : Obj)
    (hinv : WfInv callerLen call st)
    (hlen2 : st.heap.length ≤ h2.length)
    (hpres : ∀ r ∈ st.results, heapGet h2 r = heapGet st.heap r)
    (hkeys2 : ∀ obj ∈ h2, (obj.map Prod.fst).Nodup)
    (hcv : call ag tk ctxVal = .ok robj)
    (hrk : (robj.map Prod.fst).Nodup) :
    WfInv callerLen call
      { heap := h2 ++ [robj], results := st.results ++ [h2.length],
        trace := st.trace ++ [(ag, tk, ctxVal)] } := by
  obtain ⟨hlen, htr, hres, hout, hkeys⟩ := hinv
  refine ⟨?_, ?_, ?_, ?_, ?_⟩
  · simp only [List.length_append, List.length_singleton]
    omega
  · simp [htr]
  · intro r hr
    simp only [List.mem_append, List.mem_singleton] at hr
    simp only [List.length_append, List.length_singleton]
    rcases hr with hr | hr
    · have := hres r hr
      omega
    · omega
  · intro j hj
    simp only [List.length_append, List.length_singleton] at hj
    by_cases hjlt : j < st.results.length
    · rw [getD_append_lt st.trace _ noCall j (by omega),
          getD_append_lt st.results _ 0 j hjlt]
      have hmem := getD_mem st.results j 0 hjlt
      have hb := hres _ hmem
      rw [heapGet_append_lt h2 robj _ (by omega), hpres _ hmem]
      exact hout j hjlt
    · have hje : j = st.results.length := by omega
      subst hje
      have h1 : (st.trace ++ [(ag, tk, ctxVal)]).getD st.results.length noCall
          = (ag, tk, ctxVal) := by
        rw [← htr]
        exact getD_append_self st.trace _ noCall
      have h2e : (st.results ++ [h2.length]).getD st.results.length 0 =
          h2.length := getD_append_self st.results _ 0
      rw [h1, h2e, heapGet_append_self]
      exact hcv
  · intro obj hobj
    rcases List.mem_append.mp hobj with hm | hm
    · exact hkeys2 obj hm
    · rw [List.mem_singleton.mp hm]
      exact hrk

theorem runStep_spec (callerLen : Nat)
    (call : String → String → Obj → Except OrchestrationError Obj)
    (hcall : ∀ a t c robj, call a t c = Except.ok robj →
      (robj.map Prod.fst).Nodup)
    (st : WfState) (step : WStep) (st2 : WfState)
    (hinv : WfInv callerLen call st)
    (hctx : ∀ a, step.context = some a → a < callerLen)
    (hrun : runStep call st step = .ok st2) :
    WfInv callerLen call st2 ∧
    st.heap.length ≤ st2.heap.length ∧
    (∃ ctxVal robj newAddr,
      call step.agent step.task ctxVal = .ok robj ∧
      st2.trace = st.trace ++ [(step.agent, step.task, ctxVal)] ∧
      st2.results = st.results ++ [newAddr] ∧
      heapGet st2.heap newAddr = robj ∧
      (step.depends_on ≠ [] →
        objGet ctxVal "previous_results" =
          some (.hlist (step.depends_on.map
            (fun idx => .href (st.results.getD idx 0)))) ∧
        keyCount ctxVal "previous_results" = 1)) ∧
    (∀ a, a < st.heap.length → step.context ≠ some a →
      heapGet st2.heap a = heapGet st.heap a) ∧
    (∀ a, step.context = some a → step.depends_on ≠ [] →
      heapGet st2.heap a =
        objSet (heapGet st.heap a) "previous_results"
          (.hlist (step.depends_on.map
            (fun idx => .href (st.results.getD idx 0))))) := by
  unfold runStep at hrun
  by_cases hde : step.depends_on = []
  · have hdeb : step.depends_on.isEmpty = true := by rw [hde]; rfl
    rcases hcx : step.context with _ | a
    -- no caller context, no dependencies: fresh empty dict
    · rw [hcx] at hrun
      simp only [hdeb, if_true] at hrun
      cases hcv : call step.agent step.task
          (heapGet (st.heap ++ [[]]) st.heap.length) with
      | error e => rw [hcv] at hrun; simp at hrun
      | ok robj =>
          rw [hcv] at hrun
          simp only [Except.ok.injEq] at hrun
          subst hrun
          refine ⟨?_, ?_, ?_, ?_, ?_⟩
          · exact wfInv_extend callerLen call st (st.heap ++ [[]])
              step.agent step.task _ robj hinv (by simp)
              (fun r hr => heapGet_append_lt st.heap [] r (hinv.hres r hr).2)
              (by
                intro obj hobj
                rcases List.mem_append.mp hobj with hm | hm
                · exact hinv.hkeys obj hm
                · rw [List.mem_singleton.mp hm]; simp)
              hcv (hcall _ _ _ _ hcv)
          · simp
          · exact ⟨heapGet (st.heap ++ [[]]) st.heap.length, robj,
              (st.heap ++ [[]]).length, hcv, rfl, rfl,
              heapGet_append_self _ robj, fun hne => absurd hde hne⟩
          · intro a2 ha2 _
            show heapGet ((st.heap ++ [[]]) ++ [robj]) a2 = heapGet st.heap a2
            rw [heapGet_append_lt _ _ _ (by simp; omega),
                heapGet_append_lt _ _ _ ha2]
          · intro a2 ha2
            simp at ha2
    -- caller context, no dependencies: dict passed as is
    · rw [hcx] at hrun
      simp only [hdeb, if_true] at hrun
      cases hcv : call step.agent step.task (heapGet st.heap a) with
      | error e => rw [hcv] at hrun; simp at hrun
      | ok robj =>
          rw [hcv] at hrun
          simp only [Except.ok.injEq] at hrun
          subst hrun
          refine ⟨?_, ?_, ?_, ?_, ?_⟩
          · exact wfInv_extend callerLen call st st.heap
              step.agent step.task _ robj hinv (le_refl _)
              (fun r _ => rfl) hinv.hkeys hcv (hcall _ _ _ _ hcv)
          · simp
          · exact ⟨heapGet st.heap a, robj, st.heap.length, hcv, rfl, rfl,
              heapGet_append_self _ robj, fun hne => absurd hde hne⟩
          · intro a2 ha2 _
            show heapGet (st.heap ++ [robj]) a2 = heapGet st.heap a2
            exact heapGet_append_lt _ _ _ ha2
          · intro a2 _ hne
            exact absurd hde hne
  · have hdeb : step.depends_on.isEmpty = false := by
      cases hdl : step.depends_on with
      | nil => exact absurd hdl hde
      | cons x xs => rfl
    rcases hcx : step.context with _ | a
    -- no caller context, dependencies injected into the fresh dict
    · rw [hcx] at hrun
      simp only [hdeb, Bool.false_eq_true, if_false] at hrun
      rw [heapGet_append_self st.heap []] at hrun
      have hlt1 : st.heap.length < (st.heap ++ [[]]).length := by simp
      rw [heapGet_heapSet_self (st.heap ++ [[]]) st.heap.length _ hlt1]
        at hrun
      cases hcv : call step.agent step.task
          (objSet [] "previous_results"
            (.hlist (step.depends_on.map
              (fun idx => .href (st.results.getD idx 0))))) with
      | error e => rw [hcv] at hrun; simp at hrun
      | ok robj =>
          rw [hcv] at hrun
          simp only [Except.ok.injEq] at hrun
          subst hrun
          refine ⟨?_, ?_, ?_, ?_, ?_⟩
          · refine wfInv_extend callerLen call st _
              step.agent step.task _ robj hinv ?_ ?_ ?_ hcv
              (hcall _ _ _ _ hcv)
            · rw [heapSet_length]; simp
            · intro r hr
              have hb := hinv.hres r hr
              rw [heapGet_heapSet_ne _ _ _ _ (by omega),
                  heapGet_append_lt _ _ _ hb.2]
            · intro obj hobj
              rcases mem_heapSet _ _ _ _ hobj with hm | hm
              · rcases List.mem_append.mp hm with hm2 | hm2
                · exact hinv.hkeys obj hm2
                · rw [List.mem_singleton.mp hm2]; simp
              · rw [hm]
                exact objSet_keys_nodup [] _ _ (by simp)
          · simp only [List.length_append, heapSet_length,
              List.length_singleton]
            omega
          · refine ⟨_, robj, (heapSet (st.heap ++ [[]]) st.heap.length _).length,
              hcv, rfl, rfl, heapGet_append_self _ robj, fun _ => ⟨?_, ?_⟩⟩
            · exact objGet_objSet_self [] _ _
            · exact keyCount_objSet_self [] _ _ (by simp)
          · intro a2 ha2 _
            rw [heapGet_append_lt _ _ _ (by rw [heapSet_length]; simp; omega),
                heapGet_heapSet_ne _ _ _ _ (by omega),
                heapGet_append_lt _ _ _ ha2]
          · intro a2 ha2
            simp at ha2
    -- caller context, dependencies injected into the caller dict
    · rw [hcx] at hrun
      simp only [hdeb, Bool.false_eq_true, if_false] at hrun
      have ha : a < callerLen := hctx a hcx
      have haheap : a < st.heap.length := lt_of_lt_of_le ha hinv.hlen
      rw [heapGet_heapSet_self st.heap a _ haheap] at hrun
      cases hcv : call step.agent step.task
          (objSet (heapGet st.heap a) "previous_results"
            (.hlist (step.depends_on.map
              (fun idx => .href (st.results.getD idx 0))))) with
      | error e => rw [hcv] at hrun; simp at hrun
      | ok robj =>
          rw [hcv] at hrun
          simp only [Except.ok.injEq] at hrun
          subst hrun
          have hbasek := hinv.hkeys _ (heapGet_mem st.heap a haheap)
          refine ⟨?_, ?_, ?_, ?_, ?_⟩
          · refine wfInv_extend callerLen call st _
              step.agent step.task _ robj hinv ?_ ?_ ?_ hcv
              (hcall _ _ _ _ hcv)
            · rw [heapSet_length]
            · intro r hr
              have hb := hinv.hres r hr
              exact heapGet_heapSet_ne _ _ _ _ (by omega)
            · intro obj hobj
              rcases mem_heapSet _ _ _ _ hobj with hm | hm
              · exact hinv.hkeys obj hm
              · rw [hm]
                exact objSet_keys_nodup _ _ _ hbasek
          · simp only [List.length_append, heapSet_length,
              List.length_singleton]
            omega
          · refine ⟨_, robj, (heapSet st.heap a _).length,
              hcv, rfl, rfl, heapGet_append_self _ robj, fun _ => ⟨?_, ?_⟩⟩
            · exact objGet_objSet_self _ _ _
            · exact keyCount_objSet_self _ _ _ hbasek
          · intro a2 ha2 hne
            have hne2 : a ≠ a2 := fun he => hne (by rw [he])
            rw [heapGet_append_lt _ _ _ (by rw [heapSet_length]; exact ha2),
                heapGet_heapSet_ne _ _ _ _ hne2]
          · intro a2 ha2 _
            have haa : a = a2 := by injection ha2
            subst haa
            rw [heapGet_append_lt _ _ _ (by rw [heapSet_length]; exact haheap),
                heapGet_heapSet_self _ _ _ haheap]

theorem runSteps_spec (callerLen : Nat)
    (call : String → String → Obj → Except OrchestrationError Obj)
    (hcall : ∀ a t c robj, call a t c = Except.ok robj →
      (robj.map Prod.fst).Nodup) :
    ∀ (steps : List WStep) (st st2 : WfState),
      WfInv callerLen call st →
      (∀ step ∈ steps, ∀ a, step.context = some a → a < callerLen) →
      runSteps call steps st = .ok st2 →
      WfInv callerLen call st2 ∧
      st.heap.length ≤ st2.heap.length ∧
      st2.results.length = st.results.length + steps.length ∧
      st2.trace.length = st.trace.length + steps.length ∧
      (∀ j, j < st.results.length →
        st2.results.getD j 0 = st.results.getD j 0) ∧
      (∀ j, j < st.trace.length →
        st2.trace.getD j noCall = st.trace.getD j noCall) ∧
      (∀ i, i < steps.length →
        (st2.trace.getD (st.trace.length + i) noCall).1 =
          (steps.getD i default).agent ∧
        (st2.trace.getD (st.trace.length + i) noCall).2.1 =
          (steps.getD i default).task ∧
        ((steps.getD i default).depends_on ≠ [] →
          (∀ idx ∈ (steps.getD i default).depends_on,
            idx < st.results.length + i) →
          objGet (st2.trace.getD (st.trace.length + i) noCall).2.2
              "previous_results" =
            some (.hlist ((steps.getD i default).depends_on.map
              (fun idx => .href (st2.results.getD idx 0)))) ∧
          keyCount (st2.trace.getD (st.trace.length + i) noCall).2.2
            "previous_results" = 1)) := by
  intro steps
  induction steps with
  | nil =>
      intro st st2 hinv hctx hrun
      simp only [runSteps, Except.ok.injEq] at hrun
      subst hrun
      exact ⟨hinv, le_refl _, by simp, by simp, fun j _ => rfl,
        fun j _ => rfl, fun i hi => absurd hi (by simp)⟩
  | cons s rest ih =>
      intro st st2 hinv hctx hrun
      simp only [runSteps] at hrun
      cases hr1 : runStep call st s with
      | error e => rw [hr1] at hrun; simp at hrun
      | ok st1 =>
          rw [hr1] at hrun
          obtain ⟨hinv1, hlen1, ⟨ctxVal, robj, newAddr, hcv, htr1, hres1,
            hga, hdeps1⟩, hframe1, hwrite1⟩ :=
            runStep_spec callerLen call hcall st s st1 hinv
              (hctx s (by simp)) hr1
          obtain ⟨hinv2, hlen2, hcount2, htrcount2, hpres2, htrpres2,
            hstep2⟩ :=
            ih st1 st2 hinv1 (fun stp hm => hctx stp (by simp [hm])) hrun
          have hrl1 : st1.results.length = st.results.length + 1 := by
            rw [hres1]; simp
          have htl1 : st1.trace.length = st.trace.length + 1 := by
            rw [htr1]; simp
          refine ⟨hinv2, le_trans hlen1 hlen2, ?_, ?_, ?_, ?_, ?_⟩
          · rw [hcount2, hrl1]
            simp
            omega
          · rw [htrcount2, htl1]
            simp
            omega
          · intro j hj
            rw [hpres2 j (by omega), hres1,
              getD_append_lt st.results _ 0 j hj]
          · intro j hj
            rw [htrpres2 j (by omega), htr1,
              getD_append_lt st.trace _ noCall j hj]
          · intro i hi
            cases i with
            | zero =>
                simp only [List.getD_cons_zero, Nat.add_zero]
                have he : st2.trace.getD st.trace.length noCall =
                    (s.agent, s.task, ctxVal) := by
                  rw [htrpres2 st.trace.length (by omega), htr1]
                  exact getD_append_self st.trace _ noCall
                refine ⟨by rw [he], by rw [he], ?_⟩
                intro hdne hvalid
                have hinj := hdeps1 hdne
                have hmapeq : s.depends_on.map
                    (fun idx => HVal.href (st.results.getD idx 0)) =
                    s.depends_on.map
                      (fun idx => HVal.href (st2.results.getD idx 0)) := by
                  apply List.map_congr_left
                  intro idx hidx
                  have hv := hvalid idx hidx
                  rw [hpres2 idx (by omega), hres1,
                    getD_append_lt st.results _ 0 idx (by omega)]
                refine ⟨?_, ?_⟩
                · rw [he]
                  show objGet ctxVal "previous_results" = _
                  rw [hinj.1, ← hmapeq]
                · rw [he]
                  exact hinj.2
            | succ j =>
                simp only [List.getD_cons_succ]
                have hidx1 : st.trace.length + (j + 1) =
                    st1.trace.length + j := by omega
                have hidx2 : st.results.length + (j + 1) =
                    st1.results.length + j := by omega
                rw [hidx1, hidx2]
                exact hstep2 j (by simpa using Nat.lt_of_succ_lt_succ hi)

/-- Claim C9: for every step list whose depends_on indices reference earlier
steps (over caller-built context dicts with well-formed keys), a
successful runCustomWorkflow dispatches step i with the full prior
result objects of the referenced steps injected exactly once under the
reserved previous_results key of the dispatched context, collects one
result per step in step order — the final heap still holding at each
result address exactly the object the corresponding call returned, so
stored prior results are never mutated — and, when no aggregator is
supplied, returns the ordered result reference list together with the
step count. -/
theorem execute_custom_workflow_dependency_injection
    (call : String → String → Obj → Except OrchestrationError Obj)
    (steps : List WStep) (heap : Heap) (out : Obj × WfState)
    (hctxv : ∀ step ∈ steps, ∀ a, step.context = some a → a < heap.length)
    (hdepv : ∀ i, i < steps.length →
      ∀ idx ∈ (steps.getD i default).depends_on, idx < i)
    (hkeys : ∀ obj ∈ heap, (obj.map Prod.fst).Nodup)
    (hcall : ∀ a t c robj, call a t c = Except.ok robj →
      (robj.map Prod.fst).Nodup)
    (hrun : execute_custom_workflow call steps heap none = .ok out) :
    out.2.results.length = steps.length ∧
    out.2.trace.length = steps.length ∧
    (∀ i, i < steps.length →
      (out.2.trace.getD i noCall).1 = (steps.getD i default).agent ∧
      (out.2.trace.getD i noCall).2.1 = (steps.getD i default).task ∧
      ((steps.getD i default).depends_on ≠ [] →
        objGet (out.2.trace.getD i noCall).2.2 "previous_results" =
          some (.hlist ((steps.getD i default).depends_on.map
            (fun idx => .href (out.2.results.getD idx 0)))) ∧
        keyCount (out.2.trace.getD i noCall).2.2 "previous_results" = 1)) ∧
    (∀ j, j < steps.length →
      call (out.2.trace.getD j noCall).1 (out.2.trace.getD j noCall).2.1
          (out.2.trace.getD j noCall).2.2 =
        .ok (heapGet out.2.heap (out.2.results.getD j 0))) ∧
    out.1 = [("steps", .hlist (out.2.results.map .href)),
             ("total_steps", .hnum steps.length)] := by
  unfold execute_custom_workflow at hrun
  cases hrs : runSteps call steps { heap := heap, results := [], trace := [] }
      with
  | error e => rw [hrs] at hrun; simp at hrun
  | ok st =>
      rw [hrs] at hrun
      simp only [Except.ok.injEq] at hrun
      subst hrun
      have hinv0 : WfInv heap.length call
          { heap := heap, results := [], trace := [] } :=
        ⟨le_refl _, rfl, fun r hr => absurd hr (by simp),
          fun j hj => absurd hj (by simp), hkeys⟩
      obtain ⟨hinv2, _, hcount2, htrcount2, _, _, hstep2⟩ :=
        runSteps_spec heap.length call hcall steps
          { heap := heap, results := [], trace := [] } st hinv0 hctxv hrs
      simp only [List.length_nil, Nat.zero_add] at hcount2 htrcount2 hstep2
      refine ⟨hcount2, htrcount2, ?_, ?_, rfl⟩
      · intro i hi
        obtain ⟨h1, h2, h3⟩ := hstep2 i hi
        exact ⟨h1, h2, fun hdne => h3 hdne (hdepv i hi)⟩
      · intro j hj
        exact hinv2.hout j (by omega)

/-- Witness for C9 on the concrete two-step dependent workflow. -/
theorem execute_custom_workflow_dependency_injection_witness :
    wOut9.2.results.length = wSteps9.length ∧
    wOut9.2.trace.length = wSteps9.length ∧
    (∀ i, i < wSteps9.length →
      (wOut9.2.trace.getD i noCall).1 = (wSteps9.getD i default).agent ∧
      (wOut9.2.trace.getD i noCall).2.1 = (wSteps9.getD i default).task ∧
      ((wSteps9.getD i default).depends_on ≠ [] →
        objGet (wOut9.2.trace.getD i noCall).2.2 "previous_results" =
          some (.hlist ((wSteps9.getD i default).depends_on.map
            (fun idx => .href (wOut9.2.results.getD idx 0)))) ∧
        keyCount (wOut9.2.trace.getD i noCall).2.2 "previous_results" = 1)) ∧
    (∀ j, j < wSteps9.length →
      wCall (wOut9.2.trace.getD j noCall).1 (wOut9.2.trace.getD j noCall).2.1
          (wOut9.2.trace.getD j noCall).2.2 =
        .ok (heapGet wOut9.2.heap (wOut9.2.results.getD j 0))) ∧
    wOut9.1 = [("steps", .hlist (wOut9.2.results.map .href)),
               ("total_steps", .hnum wSteps9.length)] :=
  execute_custom_workflow_dependency_injection wCall wSteps9 wHeap9 wOut9
    (by
      intro step hm a ha
      rcases List.mem_cons.mp hm with h | h
      · subst h
        have ha2 : some 0 = some a := ha
        have : a = 0 := by injection ha2 with h2; exact h2.symm
        subst this
        show 0 < 1
        omega
      · rw [List.mem_singleton.mp h] at ha
        exact absurd ha (by simp)
      )
    (by
      intro i hi idx hidx
      match i, hi with
      | 0, _ =>
          simp only [wSteps9, List.getD_cons_zero] at hidx
          simp at hidx
      | 1, _ =>
          simp only [wSteps9, List.getD_cons_succ, List.getD_cons_zero]
            at hidx
          have : idx = 0 := by simpa using hidx
          omega)
    (by
      intro obj hm
      rw [List.mem_singleton.mp hm]
      simp)
    (by
      intro a t c robj h
      simp only [wCall, Except.ok.injEq] at h
      rw [← h]
      simp)
    rfl

theorem runStep_frame
    (call : String → String → Obj → Except OrchestrationError Obj)
    (st : WfState) (step : WStep) (st2 : WfState) (a : Nat)
    (ha : a < st.heap.length) (hne : step.context ≠ some a)
    (hrun : runStep call st step = .ok st2) :
    heapGet st2.heap a = heapGet st.heap a ∧
    st.heap.length ≤ st2.heap.length := by
  unfold runStep at hrun
  by_cases hde : step.depends_on.isEmpty = true
  · rcases hcx : step.context with _ | a2
    · rw [hcx] at hrun
      simp only [hde, if_true] at hrun
      cases hcv : call step.agent step.task
          (heapGet (st.heap ++ [[]]) st.heap.length) with
      | error e => rw [hcv] at hrun; simp at hrun
      | ok robj =>
          rw [hcv] at hrun
          simp only [Except.ok.injEq] at hrun
          subst hrun
          constructor
          · show heapGet ((st.heap ++ [[]]) ++ [robj]) a = heapGet st.heap a
            rw [heapGet_append_lt _ _ _ (by simp; omega),
                heapGet_append_lt _ _ _ ha]
          · simp
    · rw [hcx] at hrun
      simp only [hde, if_true] at hrun
      cases hcv : call step.agent step.task (heapGet st.heap a2) with
      | error e => rw [hcv] at hrun; simp at hrun
      | ok robj =>
          rw [hcv] at hrun
          simp only [Except.ok.injEq] at hrun
          subst hrun
          exact ⟨heapGet_append_lt _ _ _ ha, by simp⟩
  · rcases hcx : step.context with _ | a2
    · rw [hcx] at hrun
      simp only [hde, if_false, Bool.false_eq_true] at hrun
      cases hcv : call step.agent step.task
          (heapGet
            (heapSet (st.heap ++ [[]]) st.heap.length
              (objSet (heapGet (st.heap ++ [[]]) st.heap.length)
                "previous_results"
                (.hlist (step.depends_on.map
                  (fun idx => .href (st.results.getD idx 0))))))
            st.heap.length) with
      | error e => rw [hcv] at hrun; simp at hrun
      | ok robj =>
          rw [hcv] at hrun
          simp only [Except.ok.injEq] at hrun
          subst hrun
          constructor
          · rw [heapGet_append_lt _ _ _
                (by rw [heapSet_length]; simp; omega),
              heapGet_heapSet_ne _ _ _ _ (by omega),
              heapGet_append_lt _ _ _ ha]
          · simp only [List.length_append, heapSet_length,
              List.length_singleton]
            omega
    · rw [hcx] at hrun
      simp only [hde, if_false, Bool.false_eq_true] at hrun
      have hne2 : a2 ≠ a := fun he => hne (by rw [hcx, he])
      cases hcv : call step.agent step.task
          (heapGet
            (heapSet st.heap a2
              (objSet (heapGet st.heap a2) "previous_results"
                (.hlist (step.depends_on.map
                  (fun idx => .href (st.results.getD idx 0)))))) a2) with
      | error e => rw [hcv] at hrun; simp at hrun
      | ok robj =>
          rw [hcv] at hrun
          simp only [Except.ok.injEq] at hrun
          subst hrun
          constructor
          · rw [heapGet_append_lt _ _ _ (by rw [heapSet_length]; exact ha),
              heapGet_heapSet_ne _ _ _ _ hne2]
          · simp only [List.length_append, heapSet_length,
              List.length_singleton]
            omega

theorem runSteps_preserve_addr
    (call : String → String → Obj → Except OrchestrationError Obj)
    (a : Nat) :
    ∀ (steps : List WStep) (st st2 : WfState),
      a < st.heap.length →
      (∀ step ∈ steps, step.context ≠ some a) →
      runSteps call steps st = .ok st2 →
      heapGet st2.heap a = heapGet st.heap a ∧
      st.heap.length ≤ st2.heap.length := by
  intro steps
  induction steps with
  | nil =>
      intro st st2 ha _ hrun
      simp only [runSteps, Except.ok.injEq] at hrun
      subst hrun
      exact ⟨rfl, le_refl _⟩
  | cons s rest ih =>
      intro st st2 ha hne hrun
      simp only [runSteps] at hrun
      cases hr1 : runStep call st s with
      | error e => rw [hr1] at hrun; simp at hrun
      | ok st1 =>
          rw [hr1] at hrun
          obtain ⟨hp1, hl1⟩ := runStep_frame call st s st1 a ha
            (hne s (by simp)) hr1
          obtain ⟨hp2, hl2⟩ := ih st1 st2 (by omega)
            (fun stp hm => hne stp (by simp [hm])) hrun
          exact ⟨hp2.trans hp1, le_trans hl1 hl2⟩

theorem runSteps_append
    (call : String → String → Obj → Except OrchestrationError Obj)
    (xs ys : List WStep) :
    ∀ st, runSteps call (xs ++ ys) st =
      match runSteps call xs st with
      | .error e => .error e
      | .ok st2 => runSteps call ys st2 := by
  induction xs with
  | nil => intro st; rfl
  | cons x xt ih =>
      intro st
      simp only [List.cons_append, runSteps]
      cases runStep call st x with
      | error e => rfl
      | ok st1 => exact ih st1

/-- Claim C10: when step i carries a caller-supplied context dict (at heap
address a, used by no other step) and a non-empty depends_on list, a
successful runCustomWorkflow leaves the caller dict at address a equal
to the in-place previous_results assignment on its old value —
overwriting whatever the key held before, with the injected list
holding references to (not copies of) the stored prior result objects —
so the caller step structure is not left unchanged whenever the old
binding differs from the injected one. -/
theorem execute_custom_workflow_writes_caller_context
    (call : String → String → Obj → Except OrchestrationError Obj)
    (steps : List WStep) (heap : Heap) (agg : Option (List Nat → Obj))
    (out : Obj × WfState) (i a : Nat) (d : List Nat)
    (hi : i < steps.length)
    (hstepc : (steps.getD i default).context = some a)
    (hstepd : (steps.getD i default).depends_on = d)
    (hdne : d ≠ [])
    (hdlt : ∀ idx ∈ d, idx < i)
    (hctxv : ∀ step ∈ steps, ∀ a2, step.context = some a2 → a2 < heap.length)
    (huniq : ∀ j, j < steps.length → j ≠ i →
      (steps.getD j default).context ≠ some a)
    (hkeys : ∀ obj ∈ heap, (obj.map Prod.fst).Nodup)
    (hcall : ∀ a2 t c robj, call a2 t c = Except.ok robj →
      (robj.map Prod.fst).Nodup)
    (hrun : execute_custom_workflow call steps heap agg = .ok out) :
    heapGet out.2.heap a =
      objSet (heapGet heap a) "previous_results"
        (.hlist (d.map (fun idx => .href (out.2.results.getD idx 0)))) ∧
    (objGet (heapGet heap a) "previous_results" ≠
        some (.hlist (d.map (fun idx => .href (out.2.results.getD idx 0)))) →
      heapGet out.2.heap a ≠ heapGet heap a) := by
  have hgetd : steps.getD i default = steps[i] :=
    List.getD_eq_getElem steps default hi
  have hstepc2 : steps[i].context = some a := hgetd ▸ hstepc
  have hstepd2 : steps[i].depends_on = d := hgetd ▸ hstepd
  have himem : steps[i] ∈ steps := List.getElem_mem hi
  have haheap : a < heap.length := hctxv steps[i] himem a hstepc2
  unfold execute_custom_workflow at hrun
  cases hrs : runSteps call steps
      { heap := heap, results := [], trace := [] } with
  | error e => rw [hrs] at hrun; simp at hrun
  | ok st =>
      rw [hrs] at hrun
      have hout2 : out.2 = st := by
        cases agg with
        | none =>
            simp only [Except.ok.injEq] at hrun
            rw [← hrun]
        | some f =>
            simp only [Except.ok.injEq] at hrun
            rw [← hrun]
      have hsplit : steps = steps.take i ++ (steps[i] :: steps.drop (i + 1)) := by
        rw [← List.drop_eq_getElem_cons hi, List.take_append_drop]
      rw [hsplit, runSteps_append] at hrs
      cases hrsA : runSteps call (steps.take i)
          { heap := heap, results := [], trace := [] } with
      | error e => rw [hrsA] at hrs; simp at hrs
      | ok stA =>
          rw [hrsA] at hrs
          simp only [runSteps] at hrs
          cases hrB : runStep call stA steps[i] with
          | error e => rw [hrB] at hrs; simp at hrs
          | ok stB =>
              rw [hrB] at hrs
              have hinv0 : WfInv heap.length call
                  { heap := heap, results := [], trace := [] } :=
                ⟨le_refl _, rfl, fun r hr => absurd hr (by simp),
                  fun j hj => absurd hj (by simp), hkeys⟩
              have hctxTake : ∀ step ∈ steps.take i, ∀ a2,
                  step.context = some a2 → a2 < heap.length :=
                fun stp hm => hctxv stp (List.mem_of_mem_take hm)
              obtain ⟨hinvA, hlenA, hcountA, _, _, _, _⟩ :=
                runSteps_spec heap.length call hcall (steps.take i)
                  { heap := heap, results := [], trace := [] } stA hinv0
                  hctxTake hrsA
              have hresA : stA.results.length = i := by
                rw [hcountA, List.length_take]
                simp
                omega
              have hpresA : heapGet stA.heap a = heapGet heap a := by
                refine (runSteps_preserve_addr call a (steps.take i)
                  { heap := heap, results := [], trace := [] } stA haheap
                  ?_ hrsA).1
                intro m hm
                obtain ⟨k, hk, hkeq⟩ := List.mem_iff_getElem.mp hm
                have hki : k < i := by
                  have := hk
                  rw [List.length_take] at this
                  omega
                have hks : k < steps.length := by omega
                have hmk : m = steps[k] := by
                  rw [← hkeq]
                  exact List.getElem_take steps
                have hu := huniq k hks (by omega)
                rw [List.getD_eq_getElem steps default hks] at hu
                rw [hmk]
                exact hu
              obtain ⟨hinvB, hlenB, ⟨ctxVal, robj, newAddr, hcv, htrB,
                hresB, hga, hdepsB⟩, hframeB, hwriteB⟩ :=
                runStep_spec heap.length call hcall stA steps[i] stB hinvA
                  (fun a2 ha2 => hctxv steps[i] himem a2 ha2) hrB
              have hwB : heapGet stB.heap a =
                  objSet (heapGet stA.heap a) "previous_results"
                    (.hlist (d.map
                      (fun idx => .href (stA.results.getD idx 0)))) := by
                have := hwriteB a hstepc2 (by rw [hstepd2]; exact hdne)
                rw [hstepd2] at this
                exact this
              have hpresC : heapGet st.heap a = heapGet stB.heap a := by
                refine (runSteps_preserve_addr call a (steps.drop (i + 1))
                  stB st
                  (by
                    have h1 : heap.length ≤ stA.heap.length := hlenA
                    omega)
                  ?_ hrs).1
                intro m hm
                obtain ⟨k, hk, hkeq⟩ := List.mem_iff_getElem.mp hm
                have hkd : i + 1 + k < steps.length := by
                  have := hk
                  rw [List.length_drop] at this
                  omega
                have hmk : m = steps[i + 1 + k] := by
                  rw [← hkeq]
                  exact List.getElem_drop steps
                have hu := huniq (i + 1 + k) hkd (by omega)
                rw [List.getD_eq_getElem steps default hkd] at hu
                rw [hmk]
                exact hu
              have hctxSeg : ∀ step ∈ (steps[i] :: steps.drop (i + 1)),
                  ∀ a2, step.context = some a2 → a2 < heap.length := by
                intro stp hm
                rcases List.mem_cons.mp hm with h | h
                · subst h
                  exact hctxv steps[i] himem
                · exact hctxv stp (List.mem_of_mem_drop h)
              obtain ⟨_, _, _, _, hpres2, _, _⟩ :=
                runSteps_spec heap.length call hcall
                  (steps[i] :: steps.drop (i + 1)) stA st hinvA hctxSeg
                  (by
                    simp only [runSteps, hrB]
                    exact hrs)
              have hmapeq : d.map
                  (fun idx => HVal.href (stA.results.getD idx 0)) =
                  d.map (fun idx => HVal.href (st.results.getD idx 0)) := by
                apply List.map_congr_left
                intro idx hidx
                have hvi := hdlt idx hidx
                rw [hpres2 idx (by omega)]
              have hmain : heapGet out.2.heap a =
                  objSet (heapGet heap a) "previous_results"
                    (.hlist (d.map
                      (fun idx => .href (out.2.results.getD idx 0)))) := by
                rw [hout2, hpresC, hwB, hpresA, hmapeq]
              refine ⟨hmain, ?_⟩
              intro hgne he
              apply objSet_ne_of_objGet_ne (heapGet heap a)
                "previous_results"
                (.hlist (d.map (fun idx => .href (out.2.results.getD idx 0))))
                hgne
              rw [← hmain, he]

/-- Witness for C10: running the concrete workflow overwrites the old
previous_results binding of the caller dict in place with references to
the stored result objects, so the dict differs from its initial value. -/
theorem execute_custom_workflow_writes_caller_context_witness :
    heapGet wOut10.2.heap 0 =
      objSet (heapGet wHeap10 0) "previous_results"
        (.hlist ([0].map (fun idx => .href (wOut10.2.results.getD idx 0)))) ∧
    (objGet (heapGet wHeap10 0) "previous_results" ≠
        some (.hlist ([0].map
          (fun idx => .href (wOut10.2.results.getD idx 0)))) →
      heapGet wOut10.2.heap 0 ≠ heapGet wHeap10 0) :=
  execute_custom_workflow_writes_caller_context wCall wSteps10 wHeap10 none
    wOut10 1 0 [0] (by simp [wSteps10]) rfl rfl (by simp)
    (by
      intro idx hidx
      have : idx = 0 := by simpa using hidx
      omega)
    (by
      intro step hm a2 ha2
      rcases List.mem_cons.mp hm with h | h
      · rw [h] at ha2
        exact absurd ha2 (by simp)
      · rw [List.mem_singleton.mp h] at ha2
        have ha3 : some 0 = some a2 := ha2
        have h0 : a2 = 0 := by injection ha3 with hh; exact hh.symm
        subst h0
        show 0 < 1
        omega)
    (by
      intro j hj hne
      match j, hj with
      | 0, _ =>
          intro hc
          exact absurd hc (by simp [wSteps10])
      | 1, _ => exact absurd rfl hne)
    (by
      intro obj hm
      rw [List.mem_singleton.mp hm]
      simp)
    (by
      intro a2 t c robj h
      simp only [wCall, Except.ok.injEq] at h
      rw [← h]
      simp)
    rfl
